import Mathlib

/-!
Verification development for the zookeeper-client-rust core: path/chroot
translation, watcher delivery, the session state machine, the request
pipeline, the watch registry, and multi-op failure attribution.

The repository source available here is the watcher facade
(src/client/watcher.rs) and the integration test suite.  The chroot
utility, session engine, request pipeline and watch registry are not part
of the provided sources; following the library specification, those parts
are modelled from the specification text (their doc comments say so) and
the watcher facade is embedded directly from the source.
-/

namespace ZkClient

/-- Paths are sequences of characters (the Rust code uses UTF-8 strings). -/
abbrev ZPath := List Char

/-- The root path "/". -/
def rootPath : ZPath := ['/']

/-- The NUL character, forbidden in paths. -/
def nulChar : Char := Char.ofNat 0

/-- Scans a path for an empty segment, i.e. two consecutive slashes. -/
def hasDoubleSlash : ZPath → Bool
  | [] => false
  | [_] => false
  | a :: b :: rest => (a == '/' && b == '/') || hasDoubleSlash (b :: rest)

/-- Modelled from the spec: the path utility operation validate(path) (the
path/chroot module is not under the provided sources).  A path is valid iff
it starts with a slash, has no empty segment, contains no NUL byte, and has
no trailing slash except for the root path itself. -/
def validatePath (p : ZPath) : Bool :=
  p == rootPath ||
    (p.head? == some '/' && !(p.getLast? == some '/') &&
      !hasDoubleSlash p && !p.contains nulChar)

/-- Modelled from the spec: join(chroot, path) prepends the chroot to a
user-relative path; the root chroot is a no-op, and the root user path maps
to the chroot itself. -/
def joinPath (c q : ZPath) : ZPath :=
  if c = rootPath then q
  else if q = rootPath then c
  else c ++ q

/-- Modelled from the spec: strip(chroot, path) removes the chroot from a
server-side absolute path; when stripping is impossible (an above-chroot
event) the absolute path is delivered unchanged. -/
def stripPath (c p : ZPath) : ZPath :=
  if c = rootPath then p
  else if p = c then rootPath
  else if c.isPrefixOf p && ((p.drop c.length).head? == some '/') then p.drop c.length
  else p

theorem validatePath_head {q : ZPath} (h : validatePath q = true) :
    q.head? = some '/' := by
  unfold validatePath at h
  simp only [Bool.or_eq_true, Bool.and_eq_true, beq_iff_eq] at h
  rcases h with h | h
  · subst h; rfl
  · exact h.1.1.1

theorem validatePath_ne_nil {q : ZPath} (h : validatePath q = true) : q ≠ [] := by
  intro hq
  have := validatePath_head h
  rw [hq] at this
  simp at this

/-- Core roundtrip fact shared by the chroot claims: stripping undoes joining
for any valid chroot and any valid user path. -/
theorem stripPath_joinPath {c q : ZPath} (hc : validatePath c = true)
    (hq : validatePath q = true) : stripPath c (joinPath c q) = q := by
  by_cases hcr : c = rootPath
  · simp [joinPath, stripPath, hcr]
  · by_cases hqr : q = rootPath
    · simp [joinPath, stripPath, hcr, hqr]
    · have hqnil : q ≠ [] := validatePath_ne_nil hq
      have hne : c ++ q ≠ c := by
        intro h
        have : c.length + q.length = c.length := by
          simpa using congrArg List.length h
        have : q.length = 0 := by omega
        exact hqnil (List.length_eq_zero.mp this)
      have hdrop : (c ++ q).drop c.length = q := List.drop_left c q
      have hpre : c.isPrefixOf (c ++ q) = true := by
        rw [List.isPrefixOf_iff_prefix]
        exact ⟨q, rfl⟩
      simp only [joinPath, stripPath, if_neg hcr, if_neg hqr, if_neg hne]
      rw [if_pos]
      · exact hdrop
      · rw [hpre, hdrop, validatePath_head hq]
        simp

/-- C5: Chroot translation round-trips: for every chroot C and every path Q
valid under C, strip(C, join(C, Q)) equals Q. -/
theorem chroot_roundtrip (c q : ZPath) (hc : validatePath c = true)
    (hq : validatePath q = true) : stripPath c (joinPath c q) = q :=
  stripPath_joinPath hc hq

/-- Witness for C5 at chroot "/x" and user path "/y". -/
theorem chroot_roundtrip_witness :
    validatePath ['/', 'x'] = true ∧ validatePath ['/', 'y'] = true ∧
      stripPath ['/', 'x'] (joinPath ['/', 'x'] ['/', 'y']) = ['/', 'y'] :=
  ⟨by decide, by decide, chroot_roundtrip _ _ (by decide) (by decide)⟩

/-- Event types delivered to watchers (session module declaration; values from
the spec's external-interface section). -/
inductive EventType where
  | NodeCreated
  | NodeDeleted
  | NodeDataChanged
  | NodeChildrenChanged
  | PersistentWatchRemoved
  | Session
deriving DecidableEq

/-- Session states (session module declaration; values from the spec's data
model section). -/
inductive SessionState where
  | Disconnected
  | SyncConnected
  | ReadOnlyConnected
  | AuthFailed
  | Expired
  | Closed
deriving DecidableEq

instance : Fintype SessionState :=
  ⟨⟨{.Disconnected, .SyncConnected, .ReadOnlyConnected, .AuthFailed, .Expired, .Closed},
    by decide⟩, by intro x; cases x <;> decide⟩

/-- Expired, AuthFailed and Closed are the terminal session states. -/
def SessionState.isTerminal : SessionState → Bool
  | .Expired => true
  | .AuthFailed => true
  | .Closed => true
  | _ => false

/-- A watched event as handed to subscribers: event type, session state and
(server-absolute, before stripping) path. -/
structure WatchedEvent where
  eventType : EventType
  sessionState : SessionState
  path : ZPath
deriving DecidableEq

/-- Modelled from the spec: WatchedEvent::drain_root_path (session module, not
under the provided sources) strips the chroot from the incoming event path
before delivery to the subscriber. -/
def WatchedEvent.drainRootPath (e : WatchedEvent) (root : ZPath) : WatchedEvent :=
  { e with path := stripPath root e.path }

/-- Delivery endpoint of a one-shot watch (opaque session-side handle). -/
structure OneshotReceiver where
  id : Nat
deriving DecidableEq

/-- Delivery endpoint of a persistent watch (opaque session-side handle). -/
structure PersistentReceiver where
  id : Nat
deriving DecidableEq

/-- Embedded from src/client/watcher.rs: OneshotWatcher holds the chroot and
the one-shot receiver. -/
structure OneshotWatcher where
  chroot : ZPath
  receiver : OneshotReceiver
deriving DecidableEq

/-- Embedded from src/client/watcher.rs: PersistentWatcher holds the chroot
and the persistent receiver. -/
structure PersistentWatcher where
  chroot : ZPath
  receiver : PersistentReceiver
deriving DecidableEq

/-- Embedded from src/client/watcher.rs: OneshotWatcher::changed receives an
event and strips the chroot before returning it.  The awaited channel
reception is shallowly embedded as the parameter carrying the event the
receiver yields; note the watcher is consumed (Rust takes self by value). -/
def OneshotWatcher.changed (w : OneshotWatcher) (received : WatchedEvent) : WatchedEvent :=
  received.drainRootPath w.chroot

/-- Embedded from src/client/watcher.rs: PersistentWatcher::changed receives
the next event and strips the chroot before returning it. -/
def PersistentWatcher.changed (w : PersistentWatcher) (received : WatchedEvent) : WatchedEvent :=
  received.drainRootPath w.chroot

/-- C4: for every chroot C and every event path received from the server that
lies under C (it is C joined with a user path Q), the path of the delivered
event equals the received path with the prefix C removed, i.e. Q; this holds
for one-shot and persistent watcher deliveries alike, and in general the
delivered path is the strip of the received path. -/
theorem event_path_stripping (c q : ZPath) (e : WatchedEvent)
    (ro : OneshotReceiver) (rp : PersistentReceiver)
    (hc : validatePath c = true) (hq : validatePath q = true)
    (he : e.path = joinPath c q) :
    ((OneshotWatcher.mk c ro).changed e).path = q ∧
      ((PersistentWatcher.mk c rp).changed e).path = q ∧
      ((OneshotWatcher.mk c ro).changed e).path = stripPath c e.path ∧
      ((PersistentWatcher.mk c rp).changed e).path = stripPath c e.path := by
  have hs : stripPath c e.path = q := by
    rw [he]; exact stripPath_joinPath hc hq
  exact ⟨hs, hs, rfl, rfl⟩

/-- Witness for C4: chroot "/x", server event at "/x/y", delivered at "/y". -/
theorem event_path_stripping_witness :
    validatePath ['/', 'x'] = true ∧ validatePath ['/', 'y'] = true ∧
      (WatchedEvent.mk .NodeCreated .SyncConnected ['/', 'x', '/', 'y']).path =
        joinPath ['/', 'x'] ['/', 'y'] ∧
      ((OneshotWatcher.mk ['/', 'x'] ⟨0⟩).changed
        (WatchedEvent.mk .NodeCreated .SyncConnected ['/', 'x', '/', 'y'])).path = ['/', 'y'] :=
  ⟨by decide, by decide, by decide,
    (event_path_stripping ['/', 'x'] ['/', 'y'] _ ⟨0⟩ ⟨0⟩ (by decide) (by decide) (by decide)).1⟩

/-- Embedded from src/client/watcher.rs: the WatchReceiver union attached by
the session to a watched request. -/
inductive WatchReceiver where
  | none
  | oneshot (receiver : OneshotReceiver)
  | persistent (receiver : PersistentReceiver)
deriving DecidableEq

/-- Embedded from src/client/watcher.rs: WatchReceiver::into_oneshot builds a
OneshotWatcher from the oneshot variant; the other two arms panic (embedded
as Option.none). -/
def WatchReceiver.intoOneshot (r : WatchReceiver) (chroot : ZPath) : Option OneshotWatcher :=
  match r with
  | .none => Option.none
  | .oneshot receiver => some (OneshotWatcher.mk chroot receiver)
  | .persistent _ => Option.none

/-- Embedded from src/client/watcher.rs: WatchReceiver::into_persistent builds
a PersistentWatcher from the persistent variant; the other two arms panic
(embedded as Option.none). -/
def WatchReceiver.intoPersistent (r : WatchReceiver) (chroot : ZPath) : Option PersistentWatcher :=
  match r with
  | .none => Option.none
  | .oneshot _ => Option.none
  | .persistent receiver => some (PersistentWatcher.mk chroot receiver)

/-- C10: into_oneshot succeeds exactly on the Oneshot variant, carrying the
given chroot and receiver, and panics (models to none) on the None and
Persistent variants; symmetrically into_persistent succeeds exactly on the
Persistent variant and panics on None and Oneshot. -/
theorem into_watcher_variants (c : ZPath) (ro : OneshotReceiver) (rp : PersistentReceiver) :
    WatchReceiver.intoOneshot (.oneshot ro) c = some (OneshotWatcher.mk c ro) ∧
      WatchReceiver.intoOneshot .none c = Option.none ∧
      WatchReceiver.intoOneshot (.persistent rp) c = Option.none ∧
      WatchReceiver.intoPersistent (.persistent rp) c = some (PersistentWatcher.mk c rp) ∧
      WatchReceiver.intoPersistent .none c = Option.none ∧
      WatchReceiver.intoPersistent (.oneshot ro) c = Option.none ∧
      (∀ r : WatchReceiver, (∃ w, WatchReceiver.intoOneshot r c = some w) ↔
        ∃ rc, r = .oneshot rc) ∧
      (∀ r : WatchReceiver, (∃ w, WatchReceiver.intoPersistent r c = some w) ↔
        ∃ rc, r = .persistent rc) := by
  refine ⟨rfl, rfl, rfl, rfl, rfl, rfl, ?_, ?_⟩
  · intro r
    cases r with
    | none => simp [WatchReceiver.intoOneshot]
    | oneshot rc => simp [WatchReceiver.intoOneshot]
    | persistent rc => simp [WatchReceiver.intoOneshot]
  · intro r
    cases r with
    | none => simp [WatchReceiver.intoPersistent]
    | oneshot rc => simp [WatchReceiver.intoPersistent]
    | persistent rc => simp [WatchReceiver.intoPersistent]

/-- Modelled from the spec: the session engine state machine of section 4.5
(session module not under the provided sources).  Transitions: connect and
failover from Disconnected to SyncConnected, read-only connect to
ReadOnlyConnected, tcp drop or heartbeat timeout back to Disconnected,
session-timeout expiry to Expired, authentication failure to AuthFailed,
graceful close to Closed.  Terminal states have no outgoing transitions. -/
def stateStep : SessionState → SessionState → Bool
  | .Disconnected, .SyncConnected => true
  | .Disconnected, .ReadOnlyConnected => true
  | .Disconnected, .Expired => true
  | .Disconnected, .AuthFailed => true
  | .Disconnected, .Closed => true
  | .SyncConnected, .Disconnected => true
  | .SyncConnected, .Closed => true
  | .ReadOnlyConnected, .Disconnected => true
  | .ReadOnlyConnected, .Closed => true
  | _, _ => false

/-- One observation step of the state watcher: between two reads of the
single-writer watch cell the state is either unchanged or has taken an
engine transition. -/
def observedStep (a b : SessionState) : Bool :=
  a == b || stateStep a b

/-- A sequence of states observed through StateWatcher: consecutive
observations are related by observedStep. -/
def IsObservationTrace (tr : List SessionState) : Prop :=
  List.Chain' (fun a b => observedStep a b = true) tr

theorem observedStep_terminal {a b : SessionState} (ha : a.isTerminal = true)
    (h : observedStep a b = true) : b = a := by
  revert ha h
  revert a b
  decide

theorem trace_terminal_tail {s : SessionState} (hs : s.isTerminal = true) :
    ∀ l : List SessionState,
      List.Chain' (fun a b => observedStep a b = true) (s :: l) → ∀ b ∈ l, b = s := by
  intro l
  induction l with
  | nil => intro _ b hb; simp at hb
  | cons x xs ih =>
    intro h b hb
    have hx : x = s := observedStep_terminal hs (List.chain'_cons.mp h).1
    rcases List.mem_cons.mp hb with hb | hb
    · rw [hb, hx]
    · have htail : List.Chain' (fun a b => observedStep a b = true) (s :: xs) := by
        have := (List.chain'_cons.mp h).2
        rw [hx] at this
        exact this
      exact ih htail b hb

/-- C2: terminal monotonicity of the state watcher.  In every observation
trace, once a terminal state is observed every later observation yields the
same state; moreover a state is terminal exactly when the engine has no
transition out of it, so the engine can only stop emitting at a terminal
state and the final emitted value is terminal. -/
theorem state_watcher_terminal_monotonic (tr l₁ l₂ : List SessionState) (s : SessionState)
    (htr : IsObservationTrace tr) (hsplit : tr = l₁ ++ s :: l₂)
    (hterm : s.isTerminal = true) :
    (∀ b ∈ l₂, b = s) ∧ (∀ u : SessionState, u.isTerminal = true ↔ ∀ v, stateStep u v = false) := by
  constructor
  · have hsuffix : List.Chain' (fun a b => observedStep a b = true) (s :: l₂) := by
      have := htr
      rw [hsplit] at this
      exact this.right_of_append
    exact trace_terminal_tail hterm l₂ hsuffix
  · decide

/-- Witness for C2: the trace SyncConnected, Closed, Closed with the split
after the first element. -/
theorem state_watcher_terminal_monotonic_witness :
    IsObservationTrace [.SyncConnected, .Closed, .Closed] ∧
      ([.SyncConnected, .Closed, .Closed] : List SessionState) =
        [.SyncConnected] ++ .Closed :: [.Closed] ∧
      SessionState.isTerminal .Closed = true ∧
      ∀ b ∈ ([.Closed] : List SessionState), b = SessionState.Closed := by
  have hchain : IsObservationTrace [.SyncConnected, .Closed, .Closed] := by
    unfold IsObservationTrace
    exact List.chain'_cons.mpr ⟨by decide, List.chain'_cons.mpr ⟨by decide, List.chain'_singleton _⟩⟩
  refine ⟨hchain, by decide, by decide, ?_⟩
  exact (state_watcher_terminal_monotonic [.SyncConnected, .Closed, .Closed]
    [.SyncConnected] [.Closed] .Closed hchain rfl (by decide)).1

/-- Reserved xids of the wire protocol: -1 notification, -2 ping, -4 auth,
-8 setWatches. -/
def reservedXid (x : Int) : Bool :=
  x == -1 || x == -2 || x == -4 || x == -8

/-- Modelled from the spec: the monotone xid counter increments past reserved
xids (no three consecutive integers are all reserved). -/
def bumpXid (x : Int) : Int :=
  if reservedXid (x + 1) then
    if reservedXid (x + 2) then x + 3 else x + 2
  else x + 1

/-- Modelled from the spec: the observable state of the request pipeline.
Requests are identified by the order tokens the application enqueued; the
engine owns the next xid, the ordered pending queue of (xid, request) and
the sequence of frames written to the wire. -/
structure EngineState where
  nextXid : Int
  pending : List (Int × Nat)
  wire : List (Int × Nat)
deriving DecidableEq

/-- The engine starts with xid 1, nothing pending and nothing on the wire. -/
def initEngine : EngineState := ⟨1, [], []⟩

/-- Modelled from the spec: the engine pops one inbound request, assigns the
next xid, serializes the frame onto the wire, and appends the (xid, request)
entry to the ordered pending queue. -/
def sendRequest (e : EngineState) (req : Nat) : EngineState :=
  { nextXid := bumpXid e.nextXid
  , pending := e.pending ++ [(e.nextXid, req)]
  , wire := e.wire ++ [(e.nextXid, req)] }

/-- The engine drains the inbound channel sequentially: all clones of the
client handle commit their requests to this single channel, and the channel
order is the list order. -/
def transmitAll (reqs : List Nat) : EngineState :=
  reqs.foldl sendRequest initEngine

/-- Modelled from the spec: the server applies requests in wire order and
replies FIFO per session, so the reply xids arrive in wire order. -/
def serverReplies (e : EngineState) : List Int :=
  e.wire.map Prod.fst

/-- Modelled from the spec: response correlation matches each arriving reply
xid against the head of the pending queue and completes that request; a
mismatch is a fatal ProtocolError and delivery stops. -/
def correlate : List (Int × Nat) → List Int → List Nat
  | (x, r) :: ps, y :: ys => if x == y then r :: correlate ps ys else []
  | _, _ => []

/-- The order in which replies complete for an inbound request list. -/
def replyOrder (reqs : List Nat) : List Nat :=
  correlate (transmitAll reqs).pending (serverReplies (transmitAll reqs))

/-- The (xid, request) entries produced when sending a request list starting
from a given next xid. -/
def xidTrace (x : Int) : List Nat → List (Int × Nat)
  | [] => []
  | r :: rs => (x, r) :: xidTrace (bumpXid x) rs

theorem foldl_sendRequest_spec (reqs : List Nat) :
    ∀ e : EngineState,
      (reqs.foldl sendRequest e).pending = e.pending ++ xidTrace e.nextXid reqs ∧
        (reqs.foldl sendRequest e).wire = e.wire ++ xidTrace e.nextXid reqs := by
  induction reqs with
  | nil => intro e; simp [xidTrace]
  | cons r rs ih =>
    intro e
    have h := ih (sendRequest e r)
    simp only [List.foldl_cons]
    rw [h.1, h.2]
    simp [sendRequest, xidTrace]

theorem xidTrace_map_snd (reqs : List Nat) :
    ∀ x : Int, (xidTrace x reqs).map Prod.snd = reqs := by
  induction reqs with
  | nil => intro x; simp [xidTrace]
  | cons r rs ih => intro x; simp [xidTrace, ih]

theorem correlate_self (l : List (Int × Nat)) :
    correlate l (l.map Prod.fst) = l.map Prod.snd := by
  induction l with
  | nil => simp [correlate]
  | cons p ps ih =>
    obtain ⟨x, r⟩ := p
    simp [correlate, ih]

/-- C1: FIFO ordering of the request pipeline.  For any sequence of requests
committed to the engine's inbound channel (shared by the handle and all its
clones) the wire transmits them in exactly that order and the replies
complete in exactly that order; hence for any two requests, enqueued-before
implies transmitted-before and replied-before. -/
theorem request_fifo (reqs : List Nat) :
    (transmitAll reqs).wire.map Prod.snd = reqs ∧ replyOrder reqs = reqs := by
  have h := foldl_sendRequest_spec reqs initEngine
  have hw : (transmitAll reqs).wire = xidTrace 1 reqs := by
    simpa [transmitAll, initEngine] using h.2
  have hp : (transmitAll reqs).pending = xidTrace 1 reqs := by
    simpa [transmitAll, initEngine] using h.1
  constructor
  · rw [hw, xidTrace_map_snd]
  · rw [replyOrder, serverReplies, hw, hp, correlate_self, xidTrace_map_snd]

/-- Modelled from the spec: the watch registry tracks installed one-shot and
persistent descriptors, each a (descriptor id, absolute path) pair. -/
structure Registry where
  oneshots : List (Nat × ZPath)
  persistents : List (Nat × ZPath)
deriving DecidableEq

/-- The empty registry. -/
def emptyRegistry : Registry := ⟨[], []⟩

/-- Operations the session engine performs on the registry: installing a
descriptor, fanning out a node event at a path, and broadcasting a session
event. -/
inductive RegOp where
  | registerOneshot (id : Nat) (path : ZPath)
  | registerPersistent (id : Nat) (path : ZPath)
  | nodeEvent (t : EventType) (path : ZPath)
  | sessionEvent (s : SessionState)
deriving DecidableEq

/-- The session event record broadcast to watchers (empty path). -/
def sessionWatchedEvent (s : SessionState) : WatchedEvent :=
  ⟨.Session, s, []⟩

/-- A node event record as dispatched while connected. -/
def nodeWatchedEvent (t : EventType) (p : ZPath) : WatchedEvent :=
  ⟨t, .SyncConnected, p⟩

/-- Modelled from the spec: one engine step on the registry, returning the new
registry and the (descriptor id, event) deliveries it makes.  A node event
removes every matching one-shot descriptor and delivers to it, and delivers
to every matching persistent descriptor.  A session event reaching a
terminal state is broadcast to every descriptor in the registry, one-shots
receive it as their terminal event, persistent queues append it and then
stop accepting further events; a non-terminal session event is appended to
persistent queues only. -/
def stepRegistry (reg : Registry) : RegOp → Registry × List (Nat × WatchedEvent)
  | .registerOneshot i p => (⟨reg.oneshots ++ [(i, p)], reg.persistents⟩, [])
  | .registerPersistent i p => (⟨reg.oneshots, reg.persistents ++ [(i, p)]⟩, [])
  | .nodeEvent t p =>
      (⟨reg.oneshots.filter (fun d => !(d.2 == p)), reg.persistents⟩,
        (reg.oneshots.filter (fun d => d.2 == p)).map (fun d => (d.1, nodeWatchedEvent t p)) ++
          (reg.persistents.filter (fun d => d.2 == p)).map (fun d => (d.1, nodeWatchedEvent t p)))
  | .sessionEvent s =>
      if s.isTerminal then
        (⟨[], []⟩,
          reg.oneshots.map (fun d => (d.1, sessionWatchedEvent s)) ++
            reg.persistents.map (fun d => (d.1, sessionWatchedEvent s)))
      else
        (reg, reg.persistents.map (fun d => (d.1, sessionWatchedEvent s)))

/-- Running a sequence of registry operations, accumulating deliveries. -/
def runRegistry : Registry → List RegOp → Registry × List (Nat × WatchedEvent)
  | reg, [] => (reg, [])
  | reg, op :: ops =>
      ((runRegistry (stepRegistry reg op).1 ops).1,
        (stepRegistry reg op).2 ++ (runRegistry (stepRegistry reg op).1 ops).2)

/-- The events delivered to descriptor i, in delivery order. -/
def outTo (i : Nat) : List (Nat × WatchedEvent) → List WatchedEvent
  | [] => []
  | d :: l => if d.1 = i then d.2 :: outTo i l else outTo i l

/-- The events descriptor i observes over a whole operation trace starting
from the empty registry. -/
def deliveriesTo (i : Nat) (ops : List RegOp) : List WatchedEvent :=
  outTo i (runRegistry emptyRegistry ops).2

/-- Number of registrations of descriptor i in a descriptor list. -/
def countIn (i : Nat) : List (Nat × ZPath) → Nat
  | [] => 0
  | d :: l => (if d.1 = i then 1 else 0) + countIn i l

/-- Number of one-shot registrations of id i in an operation trace. -/
def oneshotRegs (i : Nat) : List RegOp → Nat
  | [] => 0
  | .registerOneshot j _ :: ops => (if j = i then 1 else 0) + oneshotRegs i ops
  | _ :: ops => oneshotRegs i ops

/-- Number of persistent registrations of id i in an operation trace. -/
def persistentRegs (i : Nat) : List RegOp → Nat
  | [] => 0
  | .registerPersistent j _ :: ops => (if j = i then 1 else 0) + persistentRegs i ops
  | _ :: ops => persistentRegs i ops

theorem outTo_append (i : Nat) (a b : List (Nat × WatchedEvent)) :
    outTo i (a ++ b) = outTo i a ++ outTo i b := by
  induction a with
  | nil => simp [outTo]
  | cons d l ih =>
    simp only [List.cons_append, outTo, ih]
    split <;> simp [ih]

theorem outTo_map (i : Nat) (ev : WatchedEvent) (l : List (Nat × ZPath)) :
    outTo i (l.map (fun d => (d.1, ev))) = List.replicate (countIn i l) ev := by
  induction l with
  | nil => simp [outTo, countIn]
  | cons d l ih =>
    by_cases h : d.1 = i
    · simp [outTo, countIn, h, ih]
      rw [Nat.add_comm, List.replicate_succ]
    · simp [outTo, countIn, h, ih]

theorem countIn_append (i : Nat) (a b : List (Nat × ZPath)) :
    countIn i (a ++ b) = countIn i a + countIn i b := by
  induction a with
  | nil => simp [countIn]
  | cons d l ih =>
    simp only [List.cons_append, countIn, List.append_eq] at *
    omega

theorem countIn_filter_split (i : Nat) (q : Nat × ZPath → Bool) (l : List (Nat × ZPath)) :
    countIn i (l.filter q) + countIn i (l.filter (fun d => !(q d))) = countIn i l := by
  induction l with
  | nil => simp [countIn]
  | cons d l ih =>
    by_cases hq : q d = true
    · simp only [List.filter_cons, hq, Bool.not_true, if_true, if_false, countIn,
        Bool.false_eq_true, ite_false, ite_true]
      omega
    · simp only [List.filter_cons, hq, Bool.not_eq_true'] at *
      simp only [Bool.false_eq_true, ite_false, hq, Bool.not_false, ite_true, countIn]
      omega

theorem countIn_filter_le (i : Nat) (q : Nat × ZPath → Bool) (l : List (Nat × ZPath)) :
    countIn i (l.filter q) ≤ countIn i l := by
  have := countIn_filter_split i q l
  omega

theorem countIn_single (i j : Nat) (p : ZPath) :
    countIn i [(j, p)] = if j = i then 1 else 0 := by
  simp [countIn]

/-- A descriptor id that is not registered and never registered again receives
nothing and stays unregistered. -/
theorem run_no_reg (i : Nat) :
    ∀ (ops : List RegOp) (reg : Registry),
      countIn i reg.oneshots = 0 → countIn i reg.persistents = 0 →
      oneshotRegs i ops = 0 → persistentRegs i ops = 0 →
      outTo i (runRegistry reg ops).2 = [] ∧
        countIn i (runRegistry reg ops).1.oneshots = 0 ∧
        countIn i (runRegistry reg ops).1.persistents = 0 := by
  intro ops
  induction ops with
  | nil =>
    intro reg h1 h2 _ _
    exact ⟨rfl, h1, h2⟩
  | cons op ops ih =>
    intro reg h1 h2 h3 h4
    cases op with
    | registerOneshot j p =>
      simp only [oneshotRegs] at h3
      simp only [persistentRegs] at h4
      have hji : (if j = i then 1 else 0) = 0 ∧ oneshotRegs i ops = 0 := by omega
      have h1n : countIn i (reg.oneshots ++ [(j, p)]) = 0 := by
        rw [countIn_append, countIn_single]
        omega
      have hrec := ih ⟨reg.oneshots ++ [(j, p)], reg.persistents⟩ h1n h2 hji.2 h4
      simpa [runRegistry, stepRegistry, outTo] using hrec
    | registerPersistent j p =>
      simp only [oneshotRegs] at h3
      simp only [persistentRegs] at h4
      have hji : (if j = i then 1 else 0) = 0 ∧ persistentRegs i ops = 0 := by omega
      have h2n : countIn i (reg.persistents ++ [(j, p)]) = 0 := by
        rw [countIn_append, countIn_single]
        omega
      have hrec := ih ⟨reg.oneshots, reg.persistents ++ [(j, p)]⟩ h1 h2n h3 hji.2
      simpa [runRegistry, stepRegistry, outTo] using hrec
    | nodeEvent t p =>
      simp only [oneshotRegs] at h3
      simp only [persistentRegs] at h4
      have h1n : countIn i (reg.oneshots.filter (fun d => !(d.2 == p))) = 0 := by
        have := countIn_filter_le i (fun d => !(d.2 == p)) reg.oneshots
        omega
      have hfire : countIn i (reg.oneshots.filter (fun d => d.2 == p)) = 0 := by
        have := countIn_filter_le i (fun d => d.2 == p) reg.oneshots
        omega
      have hfirep : countIn i (reg.persistents.filter (fun d => d.2 == p)) = 0 := by
        have := countIn_filter_le i (fun d => d.2 == p) reg.persistents
        omega
      have hrec := ih ⟨reg.oneshots.filter (fun d => !(d.2 == p)), reg.persistents⟩ h1n h2 h3 h4
      refine ⟨?_, hrec.2.1, hrec.2.2⟩
      simp [runRegistry, stepRegistry, outTo_append, outTo_map, hfire, hfirep, hrec.1]
    | sessionEvent s =>
      simp only [oneshotRegs] at h3
      simp only [persistentRegs] at h4
      by_cases hs : s.isTerminal = true
      · have hrec := ih emptyRegistry rfl rfl h3 h4
        have h0 := hrec.1
        simp only [emptyRegistry] at h0
        refine ⟨?_, ?_, ?_⟩
        · simp [runRegistry, stepRegistry, hs, outTo_append, outTo_map, h1, h2, h0]
        · simpa [runRegistry, stepRegistry, hs, emptyRegistry] using hrec.2.1
        · simpa [runRegistry, stepRegistry, hs, emptyRegistry] using hrec.2.2
      · have hrec := ih reg h1 h2 h3 h4
        refine ⟨?_, ?_, ?_⟩
        · simp [runRegistry, stepRegistry, hs, outTo_append, outTo_map, h2, hrec.1]
        · simpa [runRegistry, stepRegistry, hs] using hrec.2.1
        · simpa [runRegistry, stepRegistry, hs] using hrec.2.2

theorem oneshotRegs_append (i : Nat) (a b : List RegOp) :
    oneshotRegs i (a ++ b) = oneshotRegs i a + oneshotRegs i b := by
  induction a with
  | nil => simp [oneshotRegs]
  | cons op a ih =>
    cases op <;> simp [oneshotRegs, ih] <;> omega

theorem persistentRegs_append (i : Nat) (a b : List RegOp) :
    persistentRegs i (a ++ b) = persistentRegs i a + persistentRegs i b := by
  induction a with
  | nil => simp [persistentRegs]
  | cons op a ih =>
    cases op <;> simp [persistentRegs, ih] <;> omega

theorem oneshotRegs_take_le (i : Nat) (n : Nat) (ops : List RegOp) :
    oneshotRegs i (ops.take n) ≤ oneshotRegs i ops := by
  conv_rhs => rw [← List.take_append_drop n ops]
  rw [oneshotRegs_append]
  omega

theorem persistentRegs_take_le (i : Nat) (n : Nat) (ops : List RegOp) :
    persistentRegs i (ops.take n) ≤ persistentRegs i ops := by
  conv_rhs => rw [← List.take_append_drop n ops]
  rw [persistentRegs_append]
  omega

/-- A one-shot descriptor id receives at most as many events as it has
registrations: the delivery count is bounded by the registrations already
installed plus those still to come. -/
theorem out_count_le (i : Nat) :
    ∀ (ops : List RegOp) (reg : Registry),
      persistentRegs i ops = 0 → countIn i reg.persistents = 0 →
      (outTo i (runRegistry reg ops).2).length ≤ countIn i reg.oneshots + oneshotRegs i ops := by
  intro ops
  induction ops with
  | nil =>
    intro reg _ _
    simp [runRegistry, outTo, oneshotRegs]
  | cons op ops ih =>
    intro reg h4 h2
    cases op with
    | registerOneshot j p =>
      simp only [persistentRegs] at h4
      have hrec := ih ⟨reg.oneshots ++ [(j, p)], reg.persistents⟩ h4 h2
      simp only [countIn_append, countIn_single] at hrec
      simp only [runRegistry, stepRegistry, outTo, oneshotRegs]
      simp only [List.nil_append]
      omega
    | registerPersistent j p =>
      simp only [persistentRegs] at h4
      have hji : (if j = i then 1 else 0) = 0 ∧ persistentRegs i ops = 0 := by omega
      have h2n : countIn i (reg.persistents ++ [(j, p)]) = 0 := by
        rw [countIn_append, countIn_single]
        omega
      have hrec := ih ⟨reg.oneshots, reg.persistents ++ [(j, p)]⟩ hji.2 h2n
      simp only [runRegistry, stepRegistry, outTo, oneshotRegs]
      simpa using hrec
    | nodeEvent t p =>
      simp only [persistentRegs] at h4
      have hsplit := countIn_filter_split i (fun d => d.2 == p) reg.oneshots
      have hfirep : countIn i (reg.persistents.filter (fun d => d.2 == p)) = 0 := by
        have := countIn_filter_le i (fun d => d.2 == p) reg.persistents
        omega
      have hrec := ih ⟨reg.oneshots.filter (fun d => !(d.2 == p)), reg.persistents⟩ h4 h2
      simp only [runRegistry, stepRegistry, oneshotRegs]
      rw [outTo_append, outTo_append, outTo_map, outTo_map, hfirep]
      simp only [List.length_append, List.length_replicate, List.replicate_zero,
        List.length_nil]
      simp only [oneshotRegs] at hrec ⊢
      omega
    | sessionEvent s =>
      simp only [persistentRegs] at h4
      by_cases hs : s.isTerminal = true
      · have hrec := ih emptyRegistry h4 rfl
        simp only [runRegistry, stepRegistry, hs, if_true, oneshotRegs]
        rw [outTo_append, outTo_append, outTo_map, outTo_map, h2]
        simp only [List.length_append, List.length_replicate, List.replicate_zero,
          List.length_nil]
        simp only [emptyRegistry, countIn] at hrec
        omega
      · have hrec := ih reg h4 h2
        simp only [runRegistry, stepRegistry, hs, if_false, Bool.false_eq_true, oneshotRegs]
        rw [outTo_append, outTo_map, h2]
        simp only [List.length_append, List.replicate_zero, List.length_nil]
        omega

/-- Once a one-shot descriptor with a single registration has been handed an
event, it holds no registration in the resulting registry. -/
theorem run_consumed (i : Nat) :
    ∀ (ops : List RegOp) (reg : Registry),
      persistentRegs i ops = 0 → countIn i reg.persistents = 0 →
      countIn i reg.oneshots + oneshotRegs i ops ≤ 1 →
      outTo i (runRegistry reg ops).2 ≠ [] →
      countIn i (runRegistry reg ops).1.oneshots = 0 ∧
        countIn i (runRegistry reg ops).1.persistents = 0 := by
  intro ops
  induction ops with
  | nil =>
    intro reg _ _ _ hne
    exact absurd rfl hne
  | cons op ops ih =>
    intro reg h4 h2 hsum hne
    cases op with
    | registerOneshot j p =>
      simp only [persistentRegs] at h4
      simp only [oneshotRegs] at hsum
      have hsum2 : countIn i (reg.oneshots ++ [(j, p)]) + oneshotRegs i ops ≤ 1 := by
        rw [countIn_append, countIn_single]
        omega
      have hne2 : outTo i (runRegistry ⟨reg.oneshots ++ [(j, p)], reg.persistents⟩ ops).2 ≠ [] := by
        simpa [runRegistry, stepRegistry, outTo] using hne
      have hrec := ih ⟨reg.oneshots ++ [(j, p)], reg.persistents⟩ h4 h2 hsum2 hne2
      simpa [runRegistry, stepRegistry] using hrec
    | registerPersistent j p =>
      simp only [persistentRegs] at h4
      simp only [oneshotRegs] at hsum
      have hji : (if j = i then 1 else 0) = 0 ∧ persistentRegs i ops = 0 := by omega
      have h2n : countIn i (reg.persistents ++ [(j, p)]) = 0 := by
        rw [countIn_append, countIn_single]
        omega
      have hne2 : outTo i (runRegistry ⟨reg.oneshots, reg.persistents ++ [(j, p)]⟩ ops).2 ≠ [] := by
        simpa [runRegistry, stepRegistry, outTo] using hne
      have hrec := ih ⟨reg.oneshots, reg.persistents ++ [(j, p)]⟩ hji.2 h2n hsum hne2
      simpa [runRegistry, stepRegistry] using hrec
    | nodeEvent t p =>
      simp only [persistentRegs] at h4
      simp only [oneshotRegs] at hsum
      have hsplit := countIn_filter_split i (fun d => d.2 == p) reg.oneshots
      have hfirep : countIn i (reg.persistents.filter (fun d => d.2 == p)) = 0 := by
        have := countIn_filter_le i (fun d => d.2 == p) reg.persistents
        omega
      by_cases hf : countIn i (reg.oneshots.filter (fun d => d.2 == p)) = 0
      · have hne2 : outTo i
            (runRegistry ⟨reg.oneshots.filter (fun d => !(d.2 == p)), reg.persistents⟩ ops).2 ≠ [] := by
          intro hempty
          apply hne
          simp [runRegistry, stepRegistry, outTo_append, outTo_map, hf, hfirep, hempty]
        have hsum2 : countIn i (reg.oneshots.filter (fun d => !(d.2 == p))) +
            oneshotRegs i ops ≤ 1 := by omega
        have hrec := ih ⟨reg.oneshots.filter (fun d => !(d.2 == p)), reg.persistents⟩ h4 h2
          hsum2 hne2
        simpa [runRegistry, stepRegistry] using hrec
      · have hkept : countIn i (reg.oneshots.filter (fun d => !(d.2 == p))) = 0 := by omega
        have hregs : oneshotRegs i ops = 0 := by omega
        have hrec := run_no_reg i ops ⟨reg.oneshots.filter (fun d => !(d.2 == p)), reg.persistents⟩
          hkept h2 hregs h4
        refine ⟨?_, ?_⟩
        · simpa [runRegistry, stepRegistry] using hrec.2.1
        · simpa [runRegistry, stepRegistry] using hrec.2.2
    | sessionEvent s =>
      simp only [persistentRegs] at h4
      simp only [oneshotRegs] at hsum
      by_cases hs : s.isTerminal = true
      · by_cases hc0 : countIn i reg.oneshots = 0
        · have hne2 : outTo i (runRegistry emptyRegistry ops).2 ≠ [] := by
            intro hempty
            apply hne
            simp only [runRegistry, stepRegistry, hs, if_true]
            rw [outTo_append, outTo_append, outTo_map, outTo_map, hc0, h2]
            simpa [emptyRegistry] using hempty
          have hsum2 : countIn i (emptyRegistry.oneshots) + oneshotRegs i ops ≤ 1 := by
            simp only [emptyRegistry, countIn]
            omega
          have hrec := ih emptyRegistry h4 rfl hsum2 hne2
          refine ⟨?_, ?_⟩
          · simpa [runRegistry, stepRegistry, hs, emptyRegistry] using hrec.1
          · simpa [runRegistry, stepRegistry, hs, emptyRegistry] using hrec.2
        · have hregs : oneshotRegs i ops = 0 := by omega
          have hrec := run_no_reg i ops emptyRegistry rfl rfl hregs h4
          refine ⟨?_, ?_⟩
          · simpa [runRegistry, stepRegistry, hs, emptyRegistry] using hrec.2.1
          · simpa [runRegistry, stepRegistry, hs, emptyRegistry] using hrec.2.2
      · have hne2 : outTo i (runRegistry reg ops).2 ≠ [] := by
          intro hempty
          apply hne
          simp only [runRegistry, stepRegistry, hs, if_false, Bool.false_eq_true]
          rw [outTo_append, outTo_map, h2]
          simpa using hempty
        have hrec := ih reg h4 h2 (by omega) hne2
        simpa [runRegistry, stepRegistry, hs] using hrec

/-- C3: a one-shot watcher completes at most once.  For a descriptor id with
at most one one-shot registration in the operation trace (and none as a
persistent watch), the subscriber observes at most one event; and at every
point of the trace at which the descriptor has been handed an event, it
holds no registration in the registry (the descriptor is removed before the
event is handed over, and after completion no registration remains). -/
theorem oneshot_at_most_once (i : Nat) (ops : List RegOp)
    (h1 : oneshotRegs i ops ≤ 1) (h2 : persistentRegs i ops = 0) :
    (deliveriesTo i ops).length ≤ 1 ∧
      ∀ n, deliveriesTo i (ops.take n) ≠ [] →
        countIn i (runRegistry emptyRegistry (ops.take n)).1.oneshots = 0 ∧
          countIn i (runRegistry emptyRegistry (ops.take n)).1.persistents = 0 := by
  constructor
  · have h0 := out_count_le i ops emptyRegistry h2 rfl
    have hc0 : countIn i emptyRegistry.oneshots = 0 := rfl
    unfold deliveriesTo
    omega
  · intro n hne
    have htake1 : oneshotRegs i (ops.take n) ≤ 1 :=
      le_trans (oneshotRegs_take_le i n ops) h1
    have htake2 : persistentRegs i (ops.take n) = 0 := by
      have := persistentRegs_take_le i n ops
      omega
    have := run_consumed i (ops.take n) emptyRegistry htake2 rfl
      (by simp only [emptyRegistry, countIn]; omega) hne
    exact this

/-- Witness for C3: register one one-shot watch on "/a", fire a node event at
"/a"; exactly one delivery and an empty registry afterwards. -/
theorem oneshot_at_most_once_witness :
    oneshotRegs 7 [.registerOneshot 7 ['/', 'a'], .nodeEvent .NodeCreated ['/', 'a']] ≤ 1 ∧
      persistentRegs 7 [.registerOneshot 7 ['/', 'a'], .nodeEvent .NodeCreated ['/', 'a']] = 0 ∧
      (deliveriesTo 7 [.registerOneshot 7 ['/', 'a'], .nodeEvent .NodeCreated ['/', 'a']]).length ≤ 1 :=
  ⟨by decide, by decide,
    (oneshot_at_most_once 7 [.registerOneshot 7 ['/', 'a'], .nodeEvent .NodeCreated ['/', 'a']]
      (by decide) (by decide)).1⟩

theorem split_second {α : Type} (P : α → Prop) (a b l₁ l₂ : List α) (e : α)
    (h : a ++ b = l₁ ++ e :: l₂) (hP : P e) (ha : ∀ x ∈ a, ¬ P x) :
    ∃ l₃, b = l₃ ++ e :: l₂ := by
  rcases List.append_eq_append_iff.mp h with ⟨t, _, h2⟩ | ⟨c, h1, h2⟩
  · exact ⟨t, h2⟩
  · cases c with
    | nil => exact ⟨[], by simpa using h2.symm⟩
    | cons x c =>
      exfalso
      have hx : x ∈ a := by
        rw [h1]
        exact List.mem_append_right _ (List.mem_cons_self x c)
      have hex : e = x := by
        have := h2
        simp only [List.cons_append] at this
        exact (List.cons_eq_cons.mp this).1
      exact ha x hx (hex ▸ hP)

theorem mem_outTo_map (i : Nat) (ev x : WatchedEvent) (l : List (Nat × ZPath))
    (hx : x ∈ outTo i (l.map (fun d => (d.1, ev)))) : x = ev := by
  rw [outTo_map] at hx
  exact List.eq_of_mem_replicate hx

/-- Once a terminal session event has been handed to a persistent descriptor
with a single registration, no later event is delivered to it: the terminal
session event ends its delivery sequence. -/
theorem run_terminal_last (i : Nat) :
    ∀ (ops : List RegOp) (reg : Registry),
      oneshotRegs i ops = 0 → countIn i reg.oneshots = 0 →
      countIn i reg.persistents + persistentRegs i ops ≤ 1 →
      ∀ l₁ e l₂, outTo i (runRegistry reg ops).2 = l₁ ++ e :: l₂ →
        e.sessionState.isTerminal = true → l₂ = [] := by
  intro ops
  induction ops with
  | nil =>
    intro reg _ _ _ l₁ e l₂ hdec _
    simp only [runRegistry, outTo] at hdec
    exact absurd hdec.symm (by simp)
  | cons op ops ih =>
    intro reg h1 h2 hsum l₁ e l₂ hdec hterm
    cases op with
    | registerOneshot j p =>
      simp only [oneshotRegs] at h1
      simp only [persistentRegs] at hsum
      have h2n : countIn i (reg.oneshots ++ [(j, p)]) = 0 := by
        rw [countIn_append, countIn_single]
        omega
      have hdec2 : outTo i (runRegistry ⟨reg.oneshots ++ [(j, p)], reg.persistents⟩ ops).2 =
          l₁ ++ e :: l₂ := by
        simpa [runRegistry, stepRegistry, outTo] using hdec
      exact ih ⟨reg.oneshots ++ [(j, p)], reg.persistents⟩ (by omega) h2n
        (by show countIn i reg.persistents + persistentRegs i ops ≤ 1; omega)
        l₁ e l₂ hdec2 hterm
    | registerPersistent j p =>
      simp only [oneshotRegs] at h1
      simp only [persistentRegs] at hsum
      have hsum2 : countIn i (reg.persistents ++ [(j, p)]) + persistentRegs i ops ≤ 1 := by
        rw [countIn_append, countIn_single]
        omega
      have hdec2 : outTo i (runRegistry ⟨reg.oneshots, reg.persistents ++ [(j, p)]⟩ ops).2 =
          l₁ ++ e :: l₂ := by
        simpa [runRegistry, stepRegistry, outTo] using hdec
      exact ih ⟨reg.oneshots, reg.persistents ++ [(j, p)]⟩ h1 h2 hsum2 l₁ e l₂ hdec2 hterm
    | nodeEvent t p =>
      simp only [oneshotRegs] at h1
      simp only [persistentRegs] at hsum
      have hfire : countIn i (reg.oneshots.filter (fun d => d.2 == p)) = 0 := by
        have := countIn_filter_le i (fun d => d.2 == p) reg.oneshots
        omega
      have hkept : countIn i (reg.oneshots.filter (fun d => !(d.2 == p))) = 0 := by
        have := countIn_filter_le i (fun d => !(d.2 == p)) reg.oneshots
        omega
      rw [runRegistry] at hdec
      simp only [stepRegistry] at hdec
      rw [outTo_append, outTo_append, outTo_map, outTo_map, hfire] at hdec
      simp only [List.replicate_zero, List.nil_append] at hdec
      have hsplit := split_second (fun x => x.sessionState.isTerminal = true) _ _ l₁ l₂ e hdec
        hterm ?_
      · obtain ⟨l₃, hl₃⟩ := hsplit
        exact ih ⟨reg.oneshots.filter (fun d => !(d.2 == p)), reg.persistents⟩ h1 hkept
          (by show countIn i reg.persistents + persistentRegs i ops ≤ 1; omega)
          l₃ e l₂ hl₃ hterm
      · intro x hx
        have := List.eq_of_mem_replicate hx
        rw [this]
        simp [nodeWatchedEvent, SessionState.isTerminal]
    | sessionEvent s =>
      simp only [oneshotRegs] at h1
      simp only [persistentRegs] at hsum
      by_cases hs : s.isTerminal = true
      · rw [runRegistry] at hdec
        simp only [stepRegistry, hs, if_true] at hdec
        rw [outTo_append, outTo_append, outTo_map, outTo_map, h2] at hdec
        simp only [List.replicate_zero, List.nil_append] at hdec
        by_cases hcp : countIn i reg.persistents = 0
        · rw [hcp] at hdec
          simp only [List.replicate_zero, List.nil_append] at hdec
          exact ih emptyRegistry h1 rfl (by simp only [emptyRegistry, countIn]; omega)
            l₁ e l₂ hdec hterm
        · have hcp1 : countIn i reg.persistents = 1 := by omega
          have hregs : persistentRegs i ops = 0 := by omega
          have hrest := run_no_reg i ops emptyRegistry rfl rfl h1 hregs
          rw [hcp1] at hdec
          have h0 := hrest.1
          simp only [emptyRegistry] at h0
          rw [h0] at hdec
          simp only [List.replicate_succ, List.replicate_zero, List.append_nil] at hdec
          cases l₁ with
          | nil =>
            have := (List.cons_eq_cons.mp hdec).2
            exact this.symm
          | cons x xs =>
            exfalso
            have := (List.cons_eq_cons.mp hdec).2
            exact absurd this (by simp)
      · rw [runRegistry] at hdec
        simp only [stepRegistry, hs, if_false, Bool.false_eq_true] at hdec
        rw [outTo_append, outTo_map] at hdec
        have hsplit := split_second (fun x => x.sessionState.isTerminal = true) _ _ l₁ l₂ e hdec
          hterm ?_
        · obtain ⟨l₃, hl₃⟩ := hsplit
          exact ih reg h1 h2 (by omega) l₃ e l₂ hl₃ hterm
        · intro x hx
          have := List.eq_of_mem_replicate hx
          rw [this]
          simpa [sessionWatchedEvent] using hs

/-- C6: after a terminal session event has been delivered to a persistent
watcher, the watcher stops accepting further events: in the delivery
sequence of a persistent descriptor (one persistent registration, no
one-shot registration), a terminal session event is the last delivered
event. -/
theorem persistent_stops_after_terminal (i : Nat) (ops : List RegOp)
    (h1 : oneshotRegs i ops = 0) (h2 : persistentRegs i ops ≤ 1)
    (l₁ : List WatchedEvent) (e : WatchedEvent) (l₂ : List WatchedEvent)
    (hdec : deliveriesTo i ops = l₁ ++ e :: l₂)
    (hterm : e.sessionState.isTerminal = true) : l₂ = [] := by
  refine run_terminal_last i ops emptyRegistry h1 rfl ?_ l₁ e l₂ hdec hterm
  simp only [emptyRegistry, countIn]
  omega

/-- Witness for C6: a persistent watch on the root observing expiration; the
terminal session event is the last delivery. -/
theorem persistent_stops_after_terminal_witness :
    deliveriesTo 3 [.registerPersistent 3 ['/'], .sessionEvent .Expired,
        .nodeEvent .NodeCreated ['/']] =
      [] ++ sessionWatchedEvent .Expired :: [] ∧
      (sessionWatchedEvent .Expired).sessionState.isTerminal = true ∧
      ([] : List WatchedEvent) = [] :=
  ⟨by decide, by decide,
    persistent_stops_after_terminal 3
      [.registerPersistent 3 ['/'], .sessionEvent .Expired, .nodeEvent .NodeCreated ['/']]
      (by decide) (by decide) [] (sessionWatchedEvent .Expired) [] (by decide) (by decide)⟩

/-- C8: broadcast of a terminal session event.  Every one-shot and every
persistent descriptor currently in the registry receives the session event,
every delivery made by the step is that session event, one-shot descriptors
receive it as their terminal event (the one-shot registry empties), and the
broadcast event for expiration carries event type Session and state
Expired. -/
theorem session_event_broadcast (reg : Registry) (s : SessionState)
    (hs : s.isTerminal = true) :
    (∀ d ∈ reg.oneshots, (d.1, sessionWatchedEvent s) ∈ (stepRegistry reg (.sessionEvent s)).2) ∧
      (∀ d ∈ reg.persistents,
        (d.1, sessionWatchedEvent s) ∈ (stepRegistry reg (.sessionEvent s)).2) ∧
      (∀ x ∈ (stepRegistry reg (.sessionEvent s)).2, x.2 = sessionWatchedEvent s) ∧
      (stepRegistry reg (.sessionEvent s)).1.oneshots = [] ∧
      (sessionWatchedEvent .Expired).eventType = .Session ∧
      (sessionWatchedEvent .Expired).sessionState = .Expired := by
  simp only [stepRegistry, hs, if_true]
  refine ⟨?_, ?_, ?_, by trivial, by trivial, by trivial⟩
  · intro d hd
    exact List.mem_append_left _ (List.mem_map.mpr ⟨d, hd, rfl⟩)
  · intro d hd
    exact List.mem_append_right _ (List.mem_map.mpr ⟨d, hd, rfl⟩)
  · intro x hx
    rcases List.mem_append.mp hx with hx | hx <;>
      · rcases List.mem_map.mp hx with ⟨d, _, rfl⟩
        rfl

/-- Witness for C8: a registry with one one-shot and one persistent
descriptor, broadcasting expiration. -/
theorem session_event_broadcast_witness :
    SessionState.isTerminal .Expired = true ∧
      ((0, sessionWatchedEvent .Expired) ∈
        (stepRegistry ⟨[(0, ['/'])], [(1, ['/'])]⟩ (.sessionEvent .Expired)).2 ∧
       (1, sessionWatchedEvent .Expired) ∈
        (stepRegistry ⟨[(0, ['/'])], [(1, ['/'])]⟩ (.sessionEvent .Expired)).2) := by
  have h := session_event_broadcast ⟨[(0, ['/'])], [(1, ['/'])]⟩ .Expired (by decide)
  exact ⟨by decide, h.1 (0, ['/']) (by simp), h.2.1 (1, ['/']) (by simp)⟩

/-- Server-reported and argument-level error codes used by the claims. -/
inductive ZkError where
  | NoNode
  | NodeExists
  | BadVersion
  | NotEmpty
  | BadArguments
deriving DecidableEq

/-- A node of the server tree as far as multi-op evaluation needs it: data
and version. -/
structure NodeRec where
  data : List Nat
  version : Int
deriving DecidableEq

/-- The server tree restricted to what multi-op evaluation touches: an
association list from absolute path to node record. -/
abbrev Store := List (ZPath × NodeRec)

/-- Replaces the record stored at a path. -/
def storeSet : Store → ZPath → NodeRec → Store
  | [], _, _ => []
  | (q, m) :: rest, p, n => if q == p then (q, n) :: rest else (q, m) :: storeSet rest p n

/-- Sub-operations of a multi-write batch (the ones the claims mention). -/
inductive WriteOp where
  | setData (path : ZPath) (data : List Nat)
  | checkVersion (path : ZPath) (version : Int)
  | create (path : ZPath) (data : List Nat)
deriving DecidableEq

/-- Per-sub-operation results of a successful multi-write. -/
inductive WriteResult where
  | setDataR (version : Int)
  | checkR
  | createR (path : ZPath)
deriving DecidableEq

/-- The multi-write error surfaced to the caller: the position of the first
failing sub-operation and its error. -/
structure MultiWriteError where
  index : Nat
  source : ZkError
deriving DecidableEq

/-- Modelled from the spec: evaluation of one multi-write sub-operation
against the transaction-local tree state.  SetData bumps the version,
CheckVersion compares versions, Create fails on an existing node. -/
def applyWriteOp (s : Store) : WriteOp → Except ZkError (Store × WriteResult)
  | .setData p d =>
    match List.lookup p s with
    | some n => .ok (storeSet s p ⟨d, n.version + 1⟩, .setDataR (n.version + 1))
    | none => .error .NoNode
  | .checkVersion p v =>
    match List.lookup p s with
    | some n => if n.version = v then .ok (s, .checkR) else .error .BadVersion
    | none => .error .NoNode
  | .create p d =>
    match List.lookup p s with
    | some _ => .error .NodeExists
    | none => .ok (s ++ [(p, ⟨d, 0⟩)], .createR p)

/-- Modelled from the spec: sequential evaluation of a multi-write batch,
threading the transaction state and reporting the first failing
sub-operation with its running index. -/
def applyWriteOps (s : Store) (k : Nat) : List WriteOp → Except MultiWriteError (Store × List WriteResult)
  | [] => .ok (s, [])
  | op :: ops =>
    match applyWriteOp s op with
    | .error e => .error ⟨k, e⟩
    | .ok (s1, r) =>
      match applyWriteOps s1 (k + 1) ops with
      | .error f => .error f
      | .ok (s2, rs) => .ok (s2, r :: rs)

/-- Modelled from the spec: a multi-write commit.  On any sub-operation
failure the whole transaction is rejected: the store is left unchanged and
the error names the first failing sub-operation. -/
def multiWrite (s : Store) (ops : List WriteOp) : Store × Except MultiWriteError (List WriteResult) :=
  match applyWriteOps s 0 ops with
  | .error f => (s, .error f)
  | .ok (s1, rs) => (s1, .ok rs)

theorem applyWriteOps_error_spec :
    ∀ (ops : List WriteOp) (s : Store) (k i : Nat) (e : ZkError),
      applyWriteOps s k ops = .error ⟨i, e⟩ →
      k ≤ i ∧ i - k < ops.length ∧
        ∃ s2 rs op, applyWriteOps s k (ops.take (i - k)) = .ok (s2, rs) ∧
          ops[i - k]? = some op ∧ applyWriteOp s2 op = .error e := by
  intro ops
  induction ops with
  | nil =>
    intro s k i e h
    simp [applyWriteOps] at h
  | cons op ops ih =>
    intro s k i e h
    cases hop : applyWriteOp s op with
    | error e1 =>
      rw [applyWriteOps, hop] at h
      have hik : k = i ∧ e1 = e := by
        have := h
        simp only [Except.error.injEq, MultiWriteError.mk.injEq] at this
        exact this
      obtain ⟨rfl, rfl⟩ := hik
      refine ⟨le_refl k, by simp, s, [], op, ?_, ?_, hop⟩
      · simp [applyWriteOps]
      · simp
    | ok pr =>
      obtain ⟨s1, r⟩ := pr
      rw [applyWriteOps, hop] at h
      dsimp only at h
      cases hrec : applyWriteOps s1 (k + 1) ops with
      | error f =>
        rw [hrec] at h
        dsimp only at h
        have hfi : f = ⟨i, e⟩ := by
          simpa using h
        rw [hfi] at hrec
        obtain ⟨hk1, hlen, s2, rs, op2, htake, hidx, hfail⟩ := ih s1 (k + 1) i e hrec
        obtain ⟨j, hj⟩ : ∃ j, i - k = j + 1 := ⟨i - k - 1, by omega⟩
        have hjk : j = i - (k + 1) := by omega
        refine ⟨by omega, ?_, s2, r :: rs, op2, ?_, ?_, hfail⟩
        · simp only [List.length_cons]
          omega
        · rw [hj, List.take_succ_cons, applyWriteOps, hop]
          dsimp only
          rw [hjk, htake]
        · rw [hj]
          simp only [List.getElem?_cons_succ]
          rw [hjk]
          exact hidx
      | ok pr2 =>
        rw [hrec] at h
        obtain ⟨s2, rs⟩ := pr2
        dsimp only at h
        simp at h

/-- C7: multi-write failure attribution.  Whenever a multi-write batch fails,
the whole transaction is rejected (the store is unchanged) and the reported
error carries the index of the first failing sub-operation together with its
error: every sub-operation before that index evaluates successfully and the
one at the index fails with the reported source error. -/
theorem multi_write_failure_attribution (s : Store) (ops : List WriteOp) (i : Nat) (e : ZkError)
    (h : (multiWrite s ops).2 = .error ⟨i, e⟩) :
    (multiWrite s ops).1 = s ∧ i < ops.length ∧
      ∃ s2 rs op, applyWriteOps s 0 (ops.take i) = .ok (s2, rs) ∧
        ops[i]? = some op ∧ applyWriteOp s2 op = .error e := by
  have happ : applyWriteOps s 0 ops = .error ⟨i, e⟩ := by
    unfold multiWrite at h
    cases happ : applyWriteOps s 0 ops with
    | error f => rw [happ] at h; simpa using h
    | ok pr => rw [happ] at h; simp at h
  obtain ⟨_, hlen, s2, rs, op, htake, hidx, hfail⟩ :=
    applyWriteOps_error_spec ops s 0 i e happ
  refine ⟨?_, by simpa using hlen, s2, rs, op, by simpa using htake, by simpa using hidx, hfail⟩
  unfold multiWrite
  rw [happ]

/-- Witness for C7: the batch SetData "/a", CheckVersion("/a", bad),
Create "/a" against a store holding "/a" at version 0 returns
OperationFailed at index 1 with BadVersion and leaves the store unchanged
(the SetData inside the rejected transaction bumped the version to 1, so the
bad version 5 fails the check at index 1). -/
theorem multi_write_failure_attribution_witness :
    (multiWrite [(['/', 'a'], ⟨[0], 0⟩)]
        [.setData ['/', 'a'] [1], .checkVersion ['/', 'a'] 5, .create ['/', 'a'] [2]]).2 =
      .error ⟨1, .BadVersion⟩ ∧
      (multiWrite [(['/', 'a'], ⟨[0], 0⟩)]
        [.setData ['/', 'a'] [1], .checkVersion ['/', 'a'] 5, .create ['/', 'a'] [2]]).1 =
        [(['/', 'a'], ⟨[0], 0⟩)] :=
  ⟨by rfl,
    (multi_write_failure_attribution [(['/', 'a'], ⟨[0], 0⟩)]
      [.setData ['/', 'a'] [1], .checkVersion ['/', 'a'] 5, .create ['/', 'a'] [2]]
      1 .BadVersion (by rfl)).1⟩

/-- A client handle as far as chroot derivation is concerned: its chroot. -/
structure ClientHandle where
  root : ZPath
deriving DecidableEq

/-- Modelled from the spec: chroot construction validates the path and fails
with BadArguments on any invalid input. -/
def chrootNew (p : ZPath) : Except ZkError ZPath :=
  if validatePath p then .ok p else .error .BadArguments

/-- Modelled from the spec: chroot(sub) returns a derived handle sharing the
session with the new chroot concatenated and re-validated; on failure the
original handle is handed back unchanged. -/
def ClientHandle.chroot (c : ClientHandle) (sub : ZPath) : Except (ZkError × ClientHandle) ClientHandle :=
  match chrootNew sub with
  | .ok p => .ok ⟨joinPath c.root p⟩
  | .error e => .error (e, c)

/-- C9: for every invalid chroot path (not starting with a slash, containing
an empty segment, containing a NUL character, or ending in a non-root
trailing slash), chroot construction fails with BadArguments, and deriving a
handle with it fails returning the original handle with its chroot
unchanged. -/
theorem invalid_chroot_fails (c : ClientHandle) (sub : ZPath)
    (h : sub.head? ≠ some '/' ∨ hasDoubleSlash sub = true ∨ sub.contains nulChar = true ∨
      (sub ≠ rootPath ∧ sub.getLast? = some '/')) :
    chrootNew sub = .error .BadArguments ∧
      ClientHandle.chroot c sub = .error (.BadArguments, c) := by
  have hv : validatePath sub = false := by
    unfold validatePath
    rcases h with h | h | h | ⟨h1, h2⟩
    · have hnr : (sub == rootPath) = false := by
        rw [beq_eq_false_iff_ne]
        intro hr
        rw [hr] at h
        exact h rfl
      have hhd : (sub.head? == some '/') = false := beq_eq_false_iff_ne.mpr h
      simp [hnr, hhd]
    · have hnr : (sub == rootPath) = false := by
        rw [beq_eq_false_iff_ne]
        intro hr
        rw [hr] at h
        simp [hasDoubleSlash, rootPath] at h
      simp [hnr, h]
    · have hnr : (sub == rootPath) = false := by
        rw [beq_eq_false_iff_ne]
        intro hr
        rw [hr] at h
        revert h
        decide
      simp only [hnr, Bool.false_or]
      simp [hnr, h]
      intro _ _ _
      exact List.mem_of_elem_eq_true h
    · have hnr : (sub == rootPath) = false := beq_eq_false_iff_ne.mpr h1
      simp [hnr, h2]
  have hnew : chrootNew sub = .error .BadArguments := by
    simp [chrootNew, hv]
  exact ⟨hnew, by simp [ClientHandle.chroot, hnew]⟩

/-- Witness for C9: deriving a chroot from the relative path "abc" fails with
BadArguments and keeps the root handle unchanged. -/
theorem invalid_chroot_fails_witness :
    (['a', 'b', 'c'] : ZPath).head? ≠ some '/' ∧
      ClientHandle.chroot ⟨['/']⟩ ['a', 'b', 'c'] = .error (.BadArguments, ⟨['/']⟩) :=
  ⟨by decide,
    (invalid_chroot_fails ⟨['/']⟩ ['a', 'b', 'c'] (Or.inl (by decide))).2⟩

end ZkClient
